import Mathlib

/-!
Formal model of the MiniGit repository: a trie-based autocomplete engine
(src/autocomplete.c), a catalog-based search and ranking engine
(src/search_engine.c), and a versioned snapshot store (src/minigit.c,
src/minigit.h).  C strings are modeled as Lean `String`/`List Char`
(ASCII inputs), C `float`/`double` scores as `ℚ`, and file-system reads
as explicit environment functions `String → Option String` (a `none`
result models a failing `fopen`).  Wall-clock quantities (timestamps,
elapsed milliseconds) are not modeled; the statistics running mean is
modeled by its sample count.
-/

/- ================= ASCII character helpers ================= -/

/-- C `tolower` on an ASCII character code. -/
def lower_code (n : ℕ) : ℕ := if 65 ≤ n ∧ n ≤ 90 then n + 32 else n

/-- C `isalnum` on an ASCII character code. -/
def is_alnum_code (n : ℕ) : Bool :=
  (48 ≤ n && n ≤ 57) || (65 ≤ n && n ≤ 90) || (97 ≤ n && n ≤ 122)

/-- C `tolower` on a `Char` (ASCII range only, as in the C locale). -/
def lower_char (c : Char) : Char :=
  if 65 ≤ c.toNat ∧ c.toNat ≤ 90 then Char.ofNat (c.toNat + 32) else c

/-- In-place lowercasing of a C string (`to_lower_inplace` in
src/search_engine.c lowers only `A`-`Z`). -/
def lower_string (s : String) : String := ⟨s.data.map lower_char⟩

/- ================= Autocomplete engine (src/autocomplete.c) ========= -/

/-- `trie_node_t`: end-of-word flag, stored canonical suggestion string,
score, frequency counter, and the 128-entry child array.  The child array
is modeled as an association list ordered by child code exactly as the
array is scanned (index `0` to `127` ascending); `insert` keeps it sorted.
The `last_used` timestamp is wall-clock time and is not modeled. -/
inductive Trie : Type where
  | mk (eow : Bool) (sugg : Option String) (score : ℚ) (freq : ℕ)
       (children : List (ℕ × Trie)) : Trie

/-- Child table of a node. -/
def Trie.children : Trie → List (ℕ × Trie)
  | .mk _ _ _ _ ch => ch

/-- End-of-word flag of a node. -/
def Trie.eow : Trie → Bool
  | .mk e _ _ _ _ => e

/-- Stored suggestion of a node. -/
def Trie.sugg : Trie → Option String
  | .mk _ s _ _ _ => s

/-- Score of a node. -/
def Trie.score : Trie → ℚ
  | .mk _ _ sc _ _ => sc

/-- Frequency counter of a node. -/
def Trie.freq : Trie → ℕ
  | .mk _ _ _ f _ => f

/-- `create_trie_node`: `calloc` zeroes every field. -/
def empty_trie : Trie := .mk false none 0 0 []

/-- `node->children[c]` (array lookup). -/
def get_child : List (ℕ × Trie) → ℕ → Option Trie
  | [], _ => none
  | (k, t) :: rest, c => if k = c then some t else get_child rest c

/-- `node->children[c] = t` (array store), keeping the association list
sorted by code so that iteration order matches the C array scan. -/
def set_child : List (ℕ × Trie) → ℕ → Trie → List (ℕ × Trie)
  | [], c, t => [(c, t)]
  | (k, u) :: rest, c, t =>
      if c < k then (c, t) :: (k, u) :: rest
      else if k = c then (c, t) :: rest
      else (k, u) :: set_child rest c t

/-- One character of `insert_suggestion_into_trie`'s walk: `tolower` the
character, then skip it unless `isalnum`; the resulting child code. -/
def norm_code (c : Char) : Option ℕ :=
  let l := lower_code c.toNat
  if is_alnum_code l then some l else none

/-- The full normalized key of a suggestion: lowercased with every
non-alphanumeric character deleted (the C loop `continue`s over them). -/
def norm_codes (s : String) : List ℕ := s.data.filterMap norm_code

/-- The walk/create loop of `insert_suggestion_into_trie`, after
normalization: descend along the codes creating missing children, then
mark the terminal node end-of-word, overwrite its stored suggestion with
the literal input text, set its score, and increment its frequency. -/
def insert_path : Trie → List ℕ → String → ℚ → Trie
  | .mk _ _ _ freq children, [], s, sc => .mk true (some s) sc (freq + 1) children
  | .mk eow sugg score freq children, c :: cs, s, sc =>
      let child := (get_child children c).getD empty_trie
      .mk eow sugg score freq (set_child children c (insert_path child cs s sc))

/-- `insert_suggestion_into_trie` from src/autocomplete.c. -/
def insert_suggestion_into_trie (t : Trie) (suggestion : String) (score : ℚ) : Trie :=
  insert_path t (norm_codes suggestion) suggestion score

/-- `autocomplete_source_t` (only the source tags the repository uses). -/
inductive ACSource : Type where
  | documentTitles
  | generic
deriving DecidableEq

/-- `calculate_suggestion_score`: source-based default score (the
suggestion text argument is unused in the C code as well). -/
def calculate_suggestion_score (_suggestion : String) (source : ACSource) : ℚ :=
  match source with
  | .documentTitles => 3/5
  | .generic => 1/2

/-- `add_autocomplete_suggestion`: reject empty text, otherwise insert
with the caller score when positive, else a source-based default. -/
def add_autocomplete_suggestion (t : Trie) (suggestion : String) (score : ℚ)
    (source : ACSource) : Trie :=
  if suggestion = "" then t
  else
    insert_suggestion_into_trie t suggestion
      (if 0 < score then score else calculate_suggestion_score suggestion source)

/-- An `autocomplete_result_t`: suggestion text, score, frequency
(`last_used` and `is_trending` are time-based/constant and not modeled). -/
structure ACEntry where
  sugg : String
  score : ℚ
  freq : ℕ
deriving DecidableEq

/-- The node's own contribution to a collection: one entry when the node
is end-of-word and stores a suggestion (`node->is_end_of_word &&
node->suggestion`), nothing otherwise. -/
def node_own_entries (eow : Bool) (sugg : Option String) (score : ℚ) (freq : ℕ) :
    List ACEntry :=
  match eow, sugg with
  | true, some s => [⟨s, score, freq⟩]
  | _, _ => []

mutual

/-- All end-of-word entries of a subtree in collection order: the node's
own entry first, then the children in ascending code order (depth-first,
exactly the order `collect_suggestions_from_trie` visits nodes). -/
def trie_entries : Trie → List ACEntry
  | .mk eow sugg score freq children =>
      node_own_entries eow sugg score freq ++ children_entries children

/-- Entries of a child list, in list (= ascending code) order. -/
def children_entries : List (ℕ × Trie) → List ACEntry
  | [] => []
  | (_, c) :: rest => trie_entries c ++ children_entries rest

end

mutual

/-- `collect_suggestions_from_trie` from src/autocomplete.c: depth-first
collection of end-of-word entries into the accumulator, stopping as soon
as `maxS` entries have been gathered (the C code checks the count both on
function entry and before each child). -/
def collect_suggestions_from_trie (t : Trie) (acc : List ACEntry) (maxS : ℕ) :
    List ACEntry :=
  if maxS ≤ acc.length then acc
  else
    match t with
    | .mk eow sugg score freq children =>
      let acc1 :=
        match eow, sugg with
        | true, some s => acc ++ [(⟨s, score, freq⟩ : ACEntry)]
        | _, _ => acc
      collect_from_children children acc1 maxS

/-- The `for (i = 0; i < 128 && *count < max_suggestions; i++)` loop of
`collect_suggestions_from_trie`, over the present children in ascending
code order. -/
def collect_from_children (cs : List (ℕ × Trie)) (acc : List ACEntry) (maxS : ℕ) :
    List ACEntry :=
  match cs with
  | [] => acc
  | (_, c) :: rest =>
      if maxS ≤ acc.length then acc
      else collect_from_children rest (collect_suggestions_from_trie c acc maxS) maxS

end

/-- The descending-score order used by `compare_suggestions`.  The C code
sorts with `qsort`; `insertionSort` here fixes one admissible order for
comparator-equal entries (`qsort` leaves it unspecified). -/
def ac_score_ge (a b : ACEntry) : Prop := b.score ≤ a.score

instance : DecidableRel ac_score_ge :=
  fun a b => inferInstanceAs (Decidable (b.score ≤ a.score))

/-- The prefix walk of `get_autocomplete_suggestions`: any missing edge
or out-of-range (≥ 128) code yields no node. -/
def walk_query : Trie → List ℕ → Option Trie
  | t, [] => some t
  | t, c :: cs =>
      if 128 ≤ c then none
      else
        match get_child t.children c with
        | none => none
        | some ch => walk_query ch cs

/-- `get_autocomplete_suggestions` from src/autocomplete.c: lowercase the
query (no punctuation stripping), walk the trie to the prefix node,
collect up to `maxS` end-of-word descendants, and sort them by
descending score. -/
def get_autocomplete_suggestions (t : Trie) (query : String) (maxS : ℕ) :
    List ACEntry :=
  match walk_query t (query.data.map (fun c => lower_code c.toNat)) with
  | none => []
  | some node =>
      List.insertionSort ac_score_ge (collect_suggestions_from_trie node [] maxS)

/-- The end-of-word entries reachable below a prefix (the matches a query
with this prefix competes over). -/
def entries_under (t : Trie) (codes : List ℕ) : List ACEntry :=
  match walk_query t codes with
  | none => []
  | some node => trie_entries node

/- ================= Search engine (src/search_engine.c) ============== -/

/-- Catalog capacity (`MAX_DOCUMENTS` in src/search_engine.c). -/
def MAX_DOCUMENTS : ℕ := 100

/-- `search_result_t`: title, body text, source tag (`url`), document id,
and the transient relevance score recomputed per query.  The `timestamp`
field is wall-clock time and is not modeled; the byte ceilings of the
title/description buffers come from a header that is not part of the
repository sources, so the truncation at those ceilings is left abstract. -/
structure SearchResultT where
  title : String
  description : String
  url : String
  document_id : ℕ
  relevance_score : ℚ
  click_count : ℕ
  authority_score : ℚ
deriving DecidableEq

/-- Global search-engine state: the document catalog
(`g_documents[0..g_document_count)`) plus the query statistics.  The
running mean of response times is over wall-clock durations; it is
modeled by its sample count `total_queries` (`g_total_queries`), and each
`log_search_query` call is modeled by incrementing `log_entries`. -/
structure SearchEngineState where
  documents : List SearchResultT
  total_queries : ℕ
  log_entries : ℕ
deriving DecidableEq

/-- `init_search_engine`: empty catalog, zeroed statistics. -/
def init_search_engine : SearchEngineState :=
  { documents := [], total_queries := 0, log_entries := 0 }

/-- `add_document_to_search_engine_virtual`: copy a prebuilt document into
the catalog unless it is already at capacity. -/
def add_document_to_search_engine_virtual (doc : SearchResultT)
    (st : SearchEngineState) : SearchEngineState :=
  if MAX_DOCUMENTS ≤ st.documents.length then st
  else { st with documents := st.documents ++ [doc] }

/-- `add_document_to_search_engine`: build a document from a file (title =
the file path, body = the file content, or an error message when the read
fails) and append it unless the catalog is at capacity.  `content` is the
result of the `fopen`/`fread` at add time. -/
def add_document_to_search_engine (filename : String) (content : Option String)
    (st : SearchEngineState) : SearchEngineState :=
  if MAX_DOCUMENTS ≤ st.documents.length then st
  else
    { st with
      documents := st.documents ++
        [{ title := filename,
           description :=
             match content with
             | some c => c
             | none => "(Could not read file " ++ filename ++ ")",
           url := "local-file",
           document_id := st.documents.length + 1,
           relevance_score := 0,
           click_count := 0,
           authority_score := 0 }] }

/-- The add operations of the catalog (file documents and virtual
commit-message documents). -/
inductive SearchAddOp : Type where
  | addDoc (filename : String) (content : Option String)
  | addVirtual (doc : SearchResultT)

/-- Apply one catalog add. -/
def apply_add_op (st : SearchEngineState) : SearchAddOp → SearchEngineState
  | .addDoc filename content => add_document_to_search_engine filename content st
  | .addVirtual doc => add_document_to_search_engine_virtual doc st

/-- A sequence of catalog adds starting from the initialized engine. -/
def run_add_ops (ops : List SearchAddOp) : SearchEngineState :=
  ops.foldl apply_add_op init_search_engine

/-- Does `term` occur at the head of `text` (one `strncmp`-style probe of
the `strstr` scan)? -/
def starts_with_chars : List Char → List Char → Bool
  | _, [] => true
  | [], _ :: _ => false
  | c :: cs, d :: ds => c = d && starts_with_chars cs ds

/-- The `strstr` loop of `count_occurrences`: find a match, count it, and
resume the scan `term.length` characters later (non-overlapping). -/
def count_occ_scan : List Char → List Char → ℕ
  | [], _ => 0
  | c :: rest, term =>
      if starts_with_chars (c :: rest) term then
        1 + count_occ_scan (rest.drop (term.length - 1)) term
      else count_occ_scan rest term
termination_by text _ => text.length
decreasing_by
  · simp only [List.length_cons, List.length_drop]
    omega
  · simp only [List.length_cons]
    omega

/-- `count_occurrences` from src/search_engine.c: non-overlapping
occurrences of `term` in `text`; an empty term counts zero. -/
def count_occurrences (text term : List Char) : ℕ :=
  if term = [] then 0 else count_occ_scan text term

/-- Maximal runs of characters satisfying `p` (the shape shared by
`strtok` tokenization and the word scanners of src/minigit.c); the fuel
drops by one per consumed head, and `dropWhile` never lengthens a list,
so fuel `l.length` in `word_runs` below always suffices. -/
def word_runs_fuel (p : Char → Bool) : ℕ → List Char → List (List Char)
  | 0, _ => []
  | _, [] => []
  | fuel + 1, c :: rest =>
      if p c then (c :: rest.takeWhile p) :: word_runs_fuel p fuel (rest.dropWhile p)
      else word_runs_fuel p fuel rest

/-- Maximal runs of characters satisfying `p`, in order. -/
def word_runs (p : Char → Bool) (l : List Char) : List (List Char) :=
  word_runs_fuel p l.length l

/-- Step 1 of `search_and_rank`: lowercase the query and `strtok` it on
single spaces into at most 16 tokens (surplus tokens discarded). -/
def query_tokens (query : String) : List (List Char) :=
  (word_runs (fun c => c ≠ ' ') (lower_string query).data).take 16

/-- One iteration of the token-scoring loop of `search_and_rank`: add
`title_hits*3 + body_hits` to the accumulated score and bump the
matched-token count when the token occurs anywhere in the document. -/
def score_token_step (title desc : List Char) (acc : ℚ × ℕ) (term : List Char) :
    ℚ × ℕ :=
  (acc.1 + ((count_occurrences title term * 3 + count_occurrences desc term : ℕ) : ℚ),
   acc.2 + if 0 < count_occurrences title term ∨ 0 < count_occurrences desc term
           then 1 else 0)

/-- The raw (pre-normalization) score of one document: the token loop
followed by the coverage bonus applied when more than one token was
supplied. -/
def doc_score (tokens : List (List Char)) (title desc : List Char) : ℚ :=
  let p := tokens.foldl (score_token_step title desc) (0, 0)
  if 1 < tokens.length then p.1 * (1 + (p.2 : ℚ) / (tokens.length : ℚ)) else p.1

/-- Raw scores of the whole catalog for a query (steps 2-4 of
`search_and_rank`): each document is scored against lowercased working
copies of its title and body. -/
def raw_scores (docs : List SearchResultT) (query : String) : List ℚ :=
  docs.map (fun d =>
    doc_score (query_tokens query) (lower_string d.title).data
      (lower_string d.description).data)

/-- Step 5 of `search_and_rank`: the maximum raw score, floored at the
epsilon `0.001` to avoid dividing by zero. -/
def floored_max (scores : List ℚ) : ℚ :=
  let m := scores.foldl (fun m s => if m < s then s else m) 0
  if m < 1/1000 then 1/1000 else m

/-- The normalized relevance assigned to every document of the catalog by
one query: raw score divided by the floored maximum. -/
def relevance_list (docs : List SearchResultT) (query : String) : List ℚ :=
  (raw_scores docs query).map (fun s => s / floored_max (raw_scores docs query))

/-- The descending-relevance order of `cmp_results_descending`.  The C
code sorts with `qsort`; `insertionSort` here fixes one admissible order
for comparator-equal documents (`qsort` leaves it unspecified). -/
def result_relevance_ge (a b : SearchResultT) : Prop :=
  b.relevance_score ≤ a.relevance_score

instance : DecidableRel result_relevance_ge :=
  fun a b => inferInstanceAs (Decidable (b.relevance_score ≤ a.relevance_score))

/-- `search_and_rank` from src/search_engine.c: bad arguments
(`max_results <= 0`) and an empty catalog return zero results before the
statistics block; otherwise score, normalize, sort, truncate to
`max_results`, record one statistics sample and emit one log entry.  The
initialization flag is assumed set (states are built by
`init_search_engine`). -/
def search_and_rank (query : String) (max_results : ℕ) (st : SearchEngineState) :
    SearchEngineState × List SearchResultT :=
  if max_results = 0 then (st, [])
  else if st.documents.length = 0 then (st, [])
  else
    let m := floored_max (raw_scores st.documents query)
    let locals := (st.documents.zip (raw_scores st.documents query)).map
      (fun p => { p.1 with relevance_score := p.2 / m })
    let sorted := List.insertionSort result_relevance_ge locals
    ({ st with total_queries := st.total_queries + 1,
               log_entries := st.log_entries + 1 },
     sorted.take max_results)

/- ================= Versioned snapshot store (src/minigit.c) ========= -/

/-- `MAX_FILE_CONTENT` from src/minigit.h (50 KB snapshot ceiling). -/
def MAX_FILE_CONTENT : ℕ := 50000

/-- `MAX_FILENAME` from src/minigit.h. -/
def MAX_FILENAME : ℕ := 200

/-- `MAX_FILES_PER_COMMIT` from src/minigit.h: the declared size of the
`files` array of a `Commit`. -/
def MAX_FILES_PER_COMMIT : ℕ := 50

/-- `CommitFile`: a basename and a content blob. -/
structure CommitFile where
  filename : String
  content : String
deriving DecidableEq

/-- `Commit`: id, message and the snapshot array (`file_count` is the
length of `files`; the `next` pointer is the list structure of
`MiniGitState.commits`). -/
structure Commit where
  commit_id : ℕ
  message : String
  files : List CommitFile
deriving DecidableEq

/-- Error reports of the store (printed diagnostics in the C code). -/
inductive MgError : Type where
  | invalidInput
  | invalidState
  | notFound
deriving DecidableEq

/-- The process-wide state of the store and the two engines it feeds:
`repo.head` chain (newest first), `repo.commit_count` (the id counter),
the `index_head` staging list (LIFO, full paths), the autocomplete trie
and the search-engine catalog/statistics. -/
structure MiniGitState where
  commits : List Commit
  commit_count : ℕ
  staging : List String
  ac : Trie
  engine : SearchEngineState

/-- `init_repository` plus the init of both engines. -/
def init_repository : MiniGitState :=
  { commits := [], commit_count := 0, staging := [],
    ac := empty_trie, engine := init_search_engine }

/-- The hidden-entry test of `save_commit` (`dp->d_name[0] == '.'`);
`readdir` names are never empty. -/
def is_hidden_name (s : String) : Bool :=
  match s.data with
  | [] => false
  | c :: _ => c = '.'

/-- `strrchr(path, '/')`-based basename extraction of `commit_staged`. -/
def basename (path : String) : String :=
  (path.split (fun c => c = '/')).getLastD path

/-- A character `index_file_for_search` treats as part of a word
(`isalnum(c) || c == '_'`). -/
def is_word_char (c : Char) : Bool := is_alnum_code c.toNat || c = '_'

/-- The words `index_file_for_search` extracts from file content: maximal
alphanumeric/underscore runs, lowercased while copied.  (The C code reads
line by line with a 1024-byte `fgets` buffer; lines are assumed to fit,
as any longer line would merely split one word at the buffer boundary.) -/
def file_words (content : String) : List String :=
  (word_runs is_word_char content.data).map (fun w => ⟨w.map lower_char⟩)

/-- The autocomplete side of `index_file_for_search`, given the already
read content: every word is added with score `0.6` and the
document-titles source.  (The parallel insertion into the separate
search-trie index, `trie_insert_word`, lives in a translation unit that
is not part of the repository sources and is outside this model.) -/
def index_file_content (content : String) (t : Trie) : Trie :=
  (file_words content).foldl
    (fun tr w => add_autocomplete_suggestion tr w (3/5) ACSource.documentTitles) t

/-- `index_file_for_search`: `fopen` the file (a failing open indexes
nothing) and feed its words to the autocomplete engine. -/
def index_file_for_search (fs : String → Option String) (filename : String)
    (t : Trie) : Trie :=
  match fs filename with
  | none => t
  | some content => index_file_content content t

/-- One `strtok` token of `index_commit_message`, cleaned: alphanumeric
characters only, lowercased. -/
def clean_token (tok : List Char) : String :=
  ⟨(tok.filter (fun c => is_alnum_code c.toNat)).map lower_char⟩

/-- `index_commit_message`: every cleaned non-empty word of the message is
added to the autocomplete engine with score `0.7`, and the message becomes
a virtual catalog document titled `Commit #<id>` with source tag
`commit-msg` (all remaining `search_result_t` fields stay zeroed). -/
def index_commit_message (msg : String) (commit_id : ℕ) (t : Trie)
    (se : SearchEngineState) : Trie × SearchEngineState :=
  let words := ((word_runs (fun c => c ≠ ' ') msg.data).map clean_token).filter
    (fun w => w ≠ "")
  let t1 := words.foldl
    (fun tr w => add_autocomplete_suggestion tr w (7/10) ACSource.documentTitles) t
  let doc : SearchResultT :=
    { title := "Commit #" ++ toString commit_id, description := msg,
      url := "commit-msg", document_id := 0, relevance_score := 0,
      click_count := 0, authority_score := 0 }
  (t1, add_document_to_search_engine_virtual doc se)

/-- `add_file` from src/minigit.c: reject an empty filename; `fopen` the
path (NotFound when unreadable); otherwise push the path onto the staging
list, index the file words into the autocomplete engine and add the file
as a catalog document.  (Resolution of relative paths against `getcwd`
and the `MAX_FILENAME` truncation of the stored path are left abstract:
`filename` stands for the resolved full path.) -/
def add_file (fs : String → Option String) (filename : String)
    (st : MiniGitState) : MiniGitState × Option MgError :=
  if filename = "" then (st, some .invalidInput)
  else
    match fs filename with
    | none => (st, some .notFound)
    | some _ =>
        ({ st with
           staging := filename :: st.staging,
           ac := index_file_for_search fs filename st.ac,
           engine := add_document_to_search_engine filename (fs filename) st.engine },
         none)

/-- One snapshot of `commit_staged`: basename truncated to
`MAX_FILENAME - 1`, content re-read from disk at commit time and truncated
to `MAX_FILE_CONTENT - 1` (when the `fopen` fails the C code leaves the
content buffer untouched; that uninitialized content is modeled as empty,
while `file_count` is still incremented). -/
def snapshot_of (fs : String → Option String) (path : String) : CommitFile :=
  { filename := ⟨(basename path).data.take (MAX_FILENAME - 1)⟩,
    content :=
      match fs path with
      | some c => ⟨c.data.take (MAX_FILE_CONTENT - 1)⟩
      | none => "" }

/-- `commit_staged` from src/minigit.c: with an empty staging list, report
and change nothing.  Otherwise allocate the next id, snapshot **every**
staged file (the loop has no check against `MAX_FILES_PER_COMMIT`, so the
commit's file list is as long as the staging list), index each staged
file and then the truncated message, prepend the commit, and clear the
staging list unconditionally. -/
def commit_staged (fs : String → Option String) (msg : String)
    (st : MiniGitState) : MiniGitState × Option MgError :=
  match st.staging with
  | [] => (st, some .invalidState)
  | _ :: _ =>
      let cid := st.commit_count + 1
      let msgT : String := ⟨msg.data.take 255⟩
      let files := st.staging.map (snapshot_of fs)
      let ac1 := st.staging.foldl (fun t f => index_file_for_search fs f t) st.ac
      let acse := index_commit_message msgT cid ac1 st.engine
      ({ commits := { commit_id := cid, message := msgT, files := files } :: st.commits,
         commit_count := cid, staging := [],
         ac := acse.1, engine := acse.2 },
       none)

/-- `save_commit` from src/minigit.c: allocate the next id, enumerate the
working directory (`dir` is the `readdir` listing with each entry's
readable content, `none` for an unreadable file), skip hidden names and
failing opens, snapshot **every** remaining entry (again no check against
`MAX_FILES_PER_COMMIT`), index each file and the truncated message, and
prepend the commit; the staging list is ignored entirely. -/
def save_commit (dir : List (String × Option String)) (msg : String)
    (st : MiniGitState) : MiniGitState :=
  let cid := st.commit_count + 1
  let msgT : String := ⟨msg.data.take 255⟩
  let readable := (dir.filter (fun e => ! is_hidden_name e.1)).filterMap
    (fun e => e.2.map (fun c => (e.1, c)))
  let files := readable.map (fun e =>
    ({ filename := ⟨e.1.data.take MAX_FILENAME⟩,
       content := ⟨e.2.data.take (MAX_FILE_CONTENT - 1)⟩ } : CommitFile))
  let ac1 := readable.foldl (fun t e => index_file_content e.2 t) st.ac
  let acse := index_commit_message msgT cid ac1 st.engine
  { commits := { commit_id := cid, message := msgT, files := files } :: st.commits,
    commit_count := cid, staging := st.staging, ac := acse.1, engine := acse.2 }

/-- `view_commit`: linear scan of the commit list for the id. -/
def view_commit (cid : ℕ) (st : MiniGitState) : Option Commit :=
  st.commits.find? (fun c => c.commit_id == cid)

/-- `view_log`: the commit list newest first, as printed by the C loop. -/
def view_log (st : MiniGitState) : List (ℕ × String) :=
  st.commits.map (fun c => (c.commit_id, c.message))

/-- The unlink of `delete_commit`: remove the first node carrying the id,
or report that no node does. -/
def remove_first_commit : List Commit → ℕ → Option (List Commit)
  | [], _ => none
  | c :: rest, cid =>
      if c.commit_id = cid then some rest
      else (remove_first_commit rest cid).map (fun l => c :: l)

/-- `delete_commit` from src/minigit.c: unlink and free the node with the
id (NotFound when absent); nothing else — not the id counter, not the
other commits, not either index — is touched. -/
def delete_commit (cid : ℕ) (st : MiniGitState) : MiniGitState × Option MgError :=
  match remove_first_commit st.commits cid with
  | none => (st, some .notFound)
  | some l => ({ st with commits := l }, none)

/-- The state-changing operations of the store (checkout and the
interactive editor only write to the on-disk working directory and leave
this state unchanged). -/
inductive MiniGitOp : Type where
  | stage (fs : String → Option String) (filename : String)
  | commit (fs : String → Option String) (msg : String)
  | save (dir : List (String × Option String)) (msg : String)
  | delete (cid : ℕ)

/-- Apply one store operation (discarding the error report). -/
def apply_op (st : MiniGitState) : MiniGitOp → MiniGitState
  | .stage fs f => (add_file fs f st).1
  | .commit fs m => (commit_staged fs m st).1
  | .save dir m => save_commit dir m st
  | .delete cid => (delete_commit cid st).1

/-- A whole session: a sequence of operations from the initialized state. -/
def run_ops (ops : List MiniGitOp) : MiniGitState :=
  ops.foldl apply_op init_repository

/-- The raw-score formula as the specification words it: the sum over
tokens of `title_hits*3 + body_hits*1`, multiplied by
`1 + matched_token_count / token_count` exactly when more than one token
was supplied. -/
def spec_raw_score (tokens : List (List Char)) (title desc : List Char) : ℚ :=
  ((tokens.map (fun term =>
      ((count_occurrences title term * 3 + count_occurrences desc term : ℕ) : ℚ))).sum) *
  (if 1 < tokens.length then
      1 + ((tokens.filter (fun term =>
              0 < count_occurrences title term ∨ 0 < count_occurrences desc term)).length : ℚ)
            / (tokens.length : ℚ)
    else 1)

/-- The id-bound and strict-descent invariant of the repository. -/
def RepoInv (st : MiniGitState) : Prop :=
  (∀ c ∈ st.commits, c.commit_id ≤ st.commit_count) ∧
  (st.commits.map (fun c => c.commit_id)).Pairwise (fun a b => b < a)

/- ================= Concrete instances ============================== -/

/-- An environment with no readable files. -/
def no_fs : String → Option String := fun _ => none

/-- A repository with 51 staged files (duplicates are permitted by the
staging list). -/
def c1_staged_state : MiniGitState :=
  { init_repository with staging := List.replicate 51 "f.txt" }

/-- A working-directory listing with 51 readable, non-hidden entries. -/
def c1_dir_listing : List (String × Option String) :=
  List.replicate 51 ("g.txt", some "")

/-- A trie holding `aa` at score 1 and `ab` at score 9. -/
def c3_trie : Trie :=
  add_autocomplete_suggestion
    (add_autocomplete_suggestion empty_trie "aa" 1 ACSource.documentTitles)
    "ab" 9 ACSource.documentTitles

/-- A sample catalog document. -/
def demo_doc : SearchResultT :=
  { title := "notes.txt", description := "alpha beta alpha", url := "local-file",
    document_id := 1, relevance_score := 0, click_count := 0, authority_score := 0 }

/-- A catalog already at capacity. -/
def full_catalog : SearchEngineState :=
  { documents := List.replicate MAX_DOCUMENTS demo_doc,
    total_queries := 0, log_entries := 0 }

/-- An initialized engine holding one document. -/
def one_doc_engine : SearchEngineState :=
  { documents := [demo_doc], total_queries := 0, log_entries := 0 }

/-- A repository with one staged file. -/
def c7_state : MiniGitState :=
  { init_repository with staging := ["a.txt"] }

/-- A repository holding commits 2 and 1 (newest first). -/
def c8_state : MiniGitState :=
  { init_repository with
    commits := [⟨2, "second", []⟩, ⟨1, "first", []⟩], commit_count := 2 }

/-- A trie holding the single suggestion `hi` at score 2. -/
def c10_trie : Trie :=
  add_autocomplete_suggestion empty_trie "hi" 2 ACSource.documentTitles

/- ================= Lemmas: trie collection ========================= -/

mutual

/-- The capped depth-first collection gathers exactly the first
`maxS - acc.length` entries of the subtree, appended to the accumulator. -/
theorem collect_eq_take (t : Trie) (acc : List ACEntry) (maxS : ℕ) :
    collect_suggestions_from_trie t acc maxS
      = acc ++ (trie_entries t).take (maxS - acc.length) := by
  rw [collect_suggestions_from_trie.eq_def]
  by_cases h : maxS ≤ acc.length
  · simp [h, Nat.sub_eq_zero_of_le h]
  · simp only [h, if_false]
    match t with
    | .mk eow sugg score freq children =>
      have hlt : acc.length < maxS := Nat.lt_of_not_le h
      match eow, sugg with
      | true, some s =>
          simp only [trie_entries, node_own_entries]
          refine (collect_children_eq_take children (acc ++ [⟨s, score, freq⟩]) maxS).trans ?_
          have h1 : List.take (maxS - acc.length) [(⟨s, score, freq⟩ : ACEntry)]
              = [⟨s, score, freq⟩] :=
            List.take_of_length_le (by simp; omega)
          rw [List.take_append_eq_append_take, h1]
          have h2 : maxS - (acc ++ [(⟨s, score, freq⟩ : ACEntry)]).length
              = maxS - acc.length - [(⟨s, score, freq⟩ : ACEntry)].length := by
            simp only [List.length_append, List.length_cons, List.length_nil]
            omega
          rw [h2]
          simp
      | false, _ =>
          simp only [trie_entries, node_own_entries]
          refine (collect_children_eq_take children acc maxS).trans ?_
          simp
      | true, none =>
          simp only [trie_entries, node_own_entries]
          refine (collect_children_eq_take children acc maxS).trans ?_
          simp

/-- List version of `collect_eq_take`, over the child iteration. -/
theorem collect_children_eq_take (cs : List (ℕ × Trie)) (acc : List ACEntry) (maxS : ℕ) :
    collect_from_children cs acc maxS
      = acc ++ (children_entries cs).take (maxS - acc.length) := by
  match cs with
  | [] => simp [collect_from_children, children_entries]
  | (k, c) :: rest =>
      rw [collect_from_children.eq_def]
      by_cases h : maxS ≤ acc.length
      · simp [h, Nat.sub_eq_zero_of_le h]
      · simp only [h, if_false]
        refine (collect_children_eq_take rest
          (collect_suggestions_from_trie c acc maxS) maxS).trans ?_
        rw [collect_eq_take c acc maxS]
        simp only [children_entries, List.take_append_eq_append_take, List.append_assoc,
          List.length_append, List.length_take]
        have h3 : maxS - (acc.length + min (maxS - acc.length) (trie_entries c).length)
            = maxS - acc.length - (trie_entries c).length := by omega
        rw [h3]

end

/-- Uncapped collection: with room for every entry, the depth-first walk
collects the whole subtree. -/
theorem collect_all (t : Trie) (maxS : ℕ) (h : (trie_entries t).length ≤ maxS) :
    collect_suggestions_from_trie t [] maxS = trie_entries t := by
  rw [collect_eq_take]
  simp only [List.length_nil, Nat.sub_zero, List.nil_append]
  exact List.take_of_length_le h

/- ================= Lemmas: trie insertion and walking ============== -/

/-- Storing a child and reading the same code back. -/
theorem get_child_set_child (cs : List (ℕ × Trie)) (c : ℕ) (t : Trie) :
    get_child (set_child cs c t) c = some t := by
  induction cs with
  | nil => simp [set_child, get_child]
  | cons kt rest ih =>
      obtain ⟨k, u⟩ := kt
      by_cases h1 : c < k
      · simp [set_child, get_child, h1]
      · by_cases h2 : k = c
        · simp [set_child, get_child, h1, h2]
        · simp [set_child, get_child, h1, h2, ih]

/-- Walking the freshly inserted path reaches a node that is end-of-word
and stores the inserted suggestion text. -/
theorem walk_insert_path (cs : List ℕ) (t : Trie) (s : String) (sc : ℚ)
    (hcs : ∀ c ∈ cs, c < 128) :
    ∃ v : Trie, walk_query (insert_path t cs s sc) cs = some v ∧
      v.eow = true ∧ v.sugg = some s := by
  induction cs generalizing t with
  | nil =>
      match t with
      | .mk eow sugg score freq children =>
        exact ⟨.mk true (some s) sc (freq + 1) children, rfl, rfl, rfl⟩
  | cons c cs ih =>
      match t with
      | .mk eow sugg score freq children =>
        have hc : c < 128 := hcs c (by simp)
        have hrest : ∀ x ∈ cs, x < 128 := fun x hx => hcs x (by simp [hx])
        obtain ⟨v, hv, hve, hvs⟩ :=
          ih ((get_child children c).getD empty_trie) hrest
        refine ⟨v, ?_, hve, hvs⟩
        rw [insert_path, walk_query]
        simp only [Nat.not_le.mpr hc, if_neg (Nat.not_le.mpr hc : ¬ 128 ≤ c)]
        rw [Trie.children, get_child_set_child]
        exact hv

/-- Walking a concatenated path is walking the two halves in turn. -/
theorem walk_query_append (p q : List ℕ) (t : Trie) :
    walk_query t (p ++ q) = (walk_query t p).bind (fun u => walk_query u q) := by
  induction p generalizing t with
  | nil => simp [walk_query]
  | cons c p ih =>
      rw [List.cons_append, walk_query, walk_query]
      by_cases h : 128 ≤ c
      · simp [h]
      · simp only [h, if_false]
        match get_child t.children c with
        | none => simp
        | some ch => simpa using ih ch

/-- A looked-up child is one of the children. -/
theorem get_child_mem (cs : List (ℕ × Trie)) (c : ℕ) (t : Trie)
    (h : get_child cs c = some t) : (c, t) ∈ cs := by
  induction cs with
  | nil => simp [get_child] at h
  | cons ku rest ih =>
      obtain ⟨k, u⟩ := ku
      rw [get_child] at h
      by_cases hk : k = c
      · subst hk
        simp at h
        simp [h]
      · simp only [hk, if_false] at h
        exact List.mem_cons_of_mem _ (ih h)

/-- Entries of a child belong to the entries of the child list. -/
theorem mem_children_entries (cs : List (ℕ × Trie)) (c : ℕ) (ch : Trie)
    (hmem : (c, ch) ∈ cs) (e : ACEntry) (he : e ∈ trie_entries ch) :
    e ∈ children_entries cs := by
  induction cs with
  | nil => simp at hmem
  | cons ku rest ih =>
      obtain ⟨k, u⟩ := ku
      rw [children_entries]
      rcases List.mem_cons.mp hmem with h1 | h1
      · obtain ⟨hk, hu⟩ := Prod.mk.injEq .. ▸ h1
        subst hu
        exact List.mem_append_left _ he
      · exact List.mem_append_right _ (ih h1)

/-- The entry of an end-of-word node is among its own entries. -/
theorem own_entry_mem (u : Trie) (s : String)
    (hve : u.eow = true) (hvs : u.sugg = some s) :
    ∃ e ∈ trie_entries u, e.sugg = s := by
  cases u with
  | mk eow sugg score freq children =>
      simp only [Trie.eow] at hve
      simp only [Trie.sugg] at hvs
      subst hve
      subst hvs
      refine ⟨⟨s, score, freq⟩, ?_, rfl⟩
      rw [trie_entries]
      exact List.mem_append_left _ (by simp [node_own_entries])

/-- Entries of a looked-up child are entries of the parent. -/
theorem entries_mono (u : Trie) (c : ℕ) (ch : Trie)
    (hch : get_child u.children c = some ch) (e : ACEntry)
    (he : e ∈ trie_entries ch) : e ∈ trie_entries u := by
  cases u with
  | mk eow sugg score freq children =>
      rw [trie_entries]
      refine List.mem_append_right _ (mem_children_entries children c ch ?_ e he)
      exact get_child_mem children c ch (by simpa [Trie.children] using hch)

/-- The suggestion stored at the end of any walkable path appears among
the entries of the starting node. -/
theorem sugg_mem_entries_of_walk (p : List ℕ) (u v : Trie) (s : String)
    (hw : walk_query u p = some v) (hve : v.eow = true) (hvs : v.sugg = some s) :
    ∃ e ∈ trie_entries u, e.sugg = s := by
  induction p generalizing u with
  | nil =>
      rw [walk_query] at hw
      have huv : u = v := by simpa using hw
      subst huv
      exact own_entry_mem u s hve hvs
  | cons c p ih =>
      rw [walk_query] at hw
      by_cases h : 128 ≤ c
      · simp [h] at hw
      · simp only [h, if_false] at hw
        cases hch : get_child u.children c with
        | none => rw [hch] at hw; simp at hw
        | some ch =>
            rw [hch] at hw
            obtain ⟨e, he, hes⟩ := ih ch hw
            exact ⟨e, entries_mono u c ch hch e he, hes⟩

/- ================= Lemmas: normalized keys ========================= -/

/-- A code produced by insertion normalization is alphanumeric, not an
uppercase code, and in the 7-bit range. -/
theorem norm_code_spec (c : Char) (k : ℕ) (h : norm_code c = some k) :
    is_alnum_code k = true ∧ ¬(65 ≤ k ∧ k ≤ 90) ∧ k < 128 := by
  rw [norm_code] at h
  by_cases ha : is_alnum_code (lower_code c.toNat) = true
  · rw [if_pos ha] at h
    obtain rfl : lower_code c.toNat = k := by simpa using h
    refine ⟨ha, ?_, ?_⟩
    · by_cases hu : 65 ≤ c.toNat ∧ c.toNat ≤ 90
      · rw [lower_code, if_pos hu]
        omega
      · rw [lower_code, if_neg hu]
        omega
    · rw [is_alnum_code] at ha
      simp only [Bool.or_eq_true, Bool.and_eq_true, decide_eq_true_eq] at ha
      by_cases hu : 65 ≤ c.toNat ∧ c.toNat ≤ 90
      · rw [lower_code, if_pos hu]
        omega
      · rw [lower_code, if_neg hu]
        rw [lower_code, if_neg hu] at ha
        omega
  · rw [if_neg ha] at h
    exact absurd h (by simp)

/-- Every code of a normalized key is alphanumeric, lowercase-stable and
in the 7-bit range. -/
theorem mem_norm_codes (s : String) (k : ℕ) (hk : k ∈ norm_codes s) :
    is_alnum_code k = true ∧ lower_code k = k ∧ k < 128 := by
  rw [norm_codes] at hk
  obtain ⟨c, _, hc⟩ := List.mem_filterMap.mp hk
  obtain ⟨h1, h2, h3⟩ := norm_code_spec c k hc
  exact ⟨h1, by rw [lower_code, if_neg h2], h3⟩

/-- The empty string normalizes to the empty key. -/
theorem norm_codes_empty : norm_codes "" = [] := rfl

/- ================= Lemmas: search scoring ========================== -/

/-- The token loop of `search_and_rank`, unrolled: the accumulated score
is the sum of the per-token weighted hit counts, and the matched counter
counts the tokens that hit the document anywhere. -/
theorem score_fold_spec (title desc : List Char) (tokens : List (List Char))
    (a : ℚ) (m : ℕ) :
    tokens.foldl (score_token_step title desc) (a, m)
      = (a + ((tokens.map (fun term =>
            ((count_occurrences title term * 3 + count_occurrences desc term : ℕ) : ℚ))).sum),
         m + (tokens.filter (fun term =>
            0 < count_occurrences title term ∨ 0 < count_occurrences desc term)).length) := by
  induction tokens generalizing a m with
  | nil => simp
  | cons term ts ih =>
      rw [List.foldl_cons, score_token_step, ih]
      rw [List.map_cons, List.sum_cons, List.filter_cons]
      by_cases h : 0 < count_occurrences title term ∨ 0 < count_occurrences desc term
      · rw [if_pos h, if_pos (by simpa using h : decide (0 < count_occurrences title term
            ∨ 0 < count_occurrences desc term) = true)]
        rw [Prod.mk.injEq]
        refine ⟨by push_cast; ring, ?_⟩
        simp only [List.length_cons]
        omega
      · rw [if_neg h, if_neg (by simpa using h : ¬ decide (0 < count_occurrences title term
            ∨ 0 < count_occurrences desc term) = true)]
        rw [Prod.mk.injEq]
        exact ⟨by push_cast; ring, by omega⟩

/-- The per-document scoring loop of `search_and_rank` computes exactly
the specification's raw-score formula. -/
theorem doc_score_eq_spec (tokens : List (List Char)) (title desc : List Char) :
    doc_score tokens title desc = spec_raw_score tokens title desc := by
  rw [spec_raw_score]
  simp only [doc_score, score_fold_spec title desc tokens 0 0, zero_add]
  by_cases h : 1 < tokens.length
  · rw [if_pos h, if_pos h]
  · rw [if_neg h, if_neg h, mul_one]

/-- Raw scores are nonnegative. -/
theorem spec_raw_score_nonneg (tokens : List (List Char)) (title desc : List Char) :
    0 ≤ spec_raw_score tokens title desc := by
  rw [spec_raw_score]
  apply mul_nonneg
  · apply List.sum_nonneg
    intro x hx
    obtain ⟨term, _, rfl⟩ := List.mem_map.mp hx
    exact Nat.cast_nonneg _
  · split
    · have hd : (0:ℚ) ≤ ((tokens.filter (fun term =>
          0 < count_occurrences title term ∨ 0 < count_occurrences desc term)).length : ℚ)
            / (tokens.length : ℚ) :=
        div_nonneg (Nat.cast_nonneg _) (Nat.cast_nonneg _)
      linarith
    · norm_num

/-- The running-maximum fold never falls below its seed. -/
theorem foldl_max_le_init (l : List ℚ) (init : ℚ) :
    init ≤ l.foldl (fun m s => if m < s then s else m) init := by
  induction l generalizing init with
  | nil => simp
  | cons x xs ih =>
      rw [List.foldl_cons]
      refine le_trans ?_ (ih _)
      split
      · next h => exact le_of_lt h
      · exact le_refl _

/-- The running-maximum fold dominates every list element. -/
theorem mem_le_foldl_max (l : List ℚ) (s : ℚ) (hs : s ∈ l) (init : ℚ) :
    s ≤ l.foldl (fun m x => if m < x then x else m) init := by
  induction l generalizing init with
  | nil => simp at hs
  | cons x xs ih =>
      rw [List.foldl_cons]
      rcases List.mem_cons.mp hs with rfl | h
      · refine le_trans ?_ (foldl_max_le_init xs _)
        split
        · exact le_refl s
        · next hn => exact le_of_not_lt hn
      · exact ih h _

/-- The floored maximum is positive (it is at least the epsilon). -/
theorem floored_max_pos (l : List ℚ) : 0 < floored_max l := by
  simp only [floored_max]
  split
  · norm_num
  · next h =>
      have h2 : ¬ (l.foldl (fun m s => if m < s then s else m) 0 < 1/1000) := h
      have : (0:ℚ) < 1/1000 := by norm_num
      linarith [le_of_not_lt h2]

/-- The floored maximum dominates every raw score of the query. -/
theorem le_floored_max (l : List ℚ) (s : ℚ) (hs : s ∈ l) : s ≤ floored_max l := by
  have h1 := mem_le_foldl_max l s hs 0
  simp only [floored_max]
  split
  · next h => linarith
  · exact h1

/-- Every normalized relevance lies in `[0, 1]`. -/
theorem relevance_list_bounds (docs : List SearchResultT) (query : String) :
    ∀ r ∈ relevance_list docs query, 0 ≤ r ∧ r ≤ 1 := by
  intro r hr
  rw [relevance_list] at hr
  obtain ⟨s, hs, rfl⟩ := List.mem_map.mp hr
  have hpos := floored_max_pos (raw_scores docs query)
  have hle := le_floored_max _ s hs
  have hnn : 0 ≤ s := by
    rw [raw_scores] at hs
    obtain ⟨d, _, rfl⟩ := List.mem_map.mp hs
    rw [doc_score_eq_spec]
    exact spec_raw_score_nonneg _ _ _
  exact ⟨div_nonneg hnn (le_of_lt hpos), (div_le_one hpos).mpr hle⟩

/-- The relevance assignment, written with the specification's formula. -/
theorem relevance_list_formula (docs : List SearchResultT) (query : String) :
    relevance_list docs query
      = docs.map (fun d =>
          spec_raw_score (query_tokens query) (lower_string d.title).data
              (lower_string d.description).data
            / floored_max (raw_scores docs query)) := by
  rw [relevance_list]
  conv_lhs => rw [raw_scores]
  rw [List.map_map]
  refine List.map_congr_left (fun d _ => ?_)
  simp only [Function.comp]
  rw [doc_score_eq_spec, raw_scores]

/- ================= Lemmas: snapshot store ========================== -/

/-- A failed unlink scan means no commit carries the id. -/
theorem remove_first_commit_none (l : List Commit) (cid : ℕ)
    (h : remove_first_commit l cid = none) : ∀ c ∈ l, c.commit_id ≠ cid := by
  induction l with
  | nil => simp
  | cons c rest ih =>
      rw [remove_first_commit] at h
      by_cases hc : c.commit_id = cid
      · rw [if_pos hc] at h
        exact absurd h (by simp)
      · rw [if_neg hc] at h
        intro x hx
        rcases List.mem_cons.mp hx with rfl | hx2
        · exact hc
        · exact ih (by simpa using h) x hx2

/-- A successful unlink returns a sublist of the commit list. -/
theorem remove_first_commit_sublist (l : List Commit) (cid : ℕ) (l' : List Commit)
    (h : remove_first_commit l cid = some l') : l'.Sublist l := by
  induction l generalizing l' with
  | nil => simp [remove_first_commit] at h
  | cons c rest ih =>
      rw [remove_first_commit] at h
      by_cases hc : c.commit_id = cid
      · rw [if_pos hc] at h
        obtain rfl : rest = l' := by simpa using h
        exact List.sublist_cons_self _ _
      · rw [if_neg hc] at h
        cases hrf : remove_first_commit rest cid with
        | none => rw [hrf] at h; exact absurd h (by simp)
        | some l2 =>
            rw [hrf] at h
            obtain rfl : c :: l2 = l' := by simpa using h
            exact (ih l2 hrf).cons₂ c

/-- What a successful unlink keeps and drops: every survivor was present,
every other commit survives, and (with duplicate-free ids) no survivor
carries the deleted id. -/
theorem remove_first_commit_some (l : List Commit) (cid : ℕ) (l' : List Commit)
    (h : remove_first_commit l cid = some l') :
    (∀ c ∈ l', c ∈ l) ∧ (∀ c ∈ l, c.commit_id ≠ cid → c ∈ l') ∧
    ((l.map (fun c => c.commit_id)).Nodup → ∀ c ∈ l', c.commit_id ≠ cid) := by
  induction l generalizing l' with
  | nil => simp [remove_first_commit] at h
  | cons c rest ih =>
      rw [remove_first_commit] at h
      by_cases hc : c.commit_id = cid
      · rw [if_pos hc] at h
        obtain rfl : rest = l' := by simpa using h
        refine ⟨fun x hx => List.mem_cons_of_mem _ hx, fun x hx hxne => ?_, fun hnd x hx hxe => ?_⟩
        · rcases List.mem_cons.mp hx with rfl | h2
          · exact absurd hc hxne
          · exact h2
        · rw [List.map_cons, List.nodup_cons] at hnd
          refine hnd.1 ?_
          rw [hc, ← hxe]
          exact List.mem_map_of_mem _ hx
      · rw [if_neg hc] at h
        cases hrf : remove_first_commit rest cid with
        | none => rw [hrf] at h; exact absurd h (by simp)
        | some l2 =>
            rw [hrf] at h
            obtain rfl : c :: l2 = l' := by simpa using h
            obtain ⟨ih1, ih2, ih3⟩ := ih l2 hrf
            refine ⟨fun x hx => ?_, fun x hx hxne => ?_, fun hnd x hx hxe => ?_⟩
            · rcases List.mem_cons.mp hx with rfl | h2
              · exact List.mem_cons_self x rest
              · exact List.mem_cons_of_mem _ (ih1 x h2)
            · rcases List.mem_cons.mp hx with rfl | h2
              · exact List.mem_cons_self x l2
              · exact List.mem_cons_of_mem _ (ih2 x h2 hxne)
            · rw [List.map_cons, List.nodup_cons] at hnd
              rcases List.mem_cons.mp hx with rfl | h2
              · exact hc hxe
              · exact ih3 hnd.2 x h2 hxe

/-- The initial repository satisfies the invariant. -/
theorem repo_inv_init : RepoInv init_repository := by
  constructor <;> simp [init_repository]

/-- `add_file` never touches the commit list or the id counter. -/
theorem add_file_commits (fs : String → Option String) (f : String)
    (st : MiniGitState) :
    (add_file fs f st).1.commit_count = st.commit_count ∧
    (add_file fs f st).1.commits = st.commits := by
  rw [add_file]
  split
  · exact ⟨rfl, rfl⟩
  · split
    · exact ⟨rfl, rfl⟩
    · exact ⟨rfl, rfl⟩

/-- Every operation preserves the repository invariant. -/
theorem repo_inv_apply (st : MiniGitState) (op : MiniGitOp) (h : RepoInv st) :
    RepoInv (apply_op st op) := by
  obtain ⟨h1, h2⟩ := h
  cases op with
  | stage fs f =>
      obtain ⟨hc, hl⟩ := add_file_commits fs f st
      rw [apply_op]
      rw [RepoInv, hc, hl]
      exact ⟨h1, h2⟩
  | commit fs m =>
      rw [apply_op]
      cases hs : st.staging with
      | nil =>
          simp only [commit_staged, hs]
          exact ⟨h1, h2⟩
      | cons f rest =>
          simp only [commit_staged, hs]
          constructor
          · intro c hc
            rcases List.mem_cons.mp hc with rfl | hmem
            · exact le_refl _
            · exact le_trans (h1 c hmem) (Nat.le_succ _)
          · rw [List.map_cons, List.pairwise_cons]
            refine ⟨fun b hb => ?_, h2⟩
            obtain ⟨c, hc, rfl⟩ := List.mem_map.mp hb
            exact Nat.lt_succ_of_le (h1 c hc)
  | save dir m =>
      rw [apply_op]
      simp only [save_commit]
      constructor
      · intro c hc
        rcases List.mem_cons.mp hc with rfl | hmem
        · exact le_refl _
        · exact le_trans (h1 c hmem) (Nat.le_succ _)
      · rw [List.map_cons, List.pairwise_cons]
        refine ⟨fun b hb => ?_, h2⟩
        obtain ⟨c, hc, rfl⟩ := List.mem_map.mp hb
        exact Nat.lt_succ_of_le (h1 c hc)
  | delete cid =>
      rw [apply_op, delete_commit]
      cases hrf : remove_first_commit st.commits cid with
      | none => exact ⟨h1, h2⟩
      | some l =>
          refine ⟨fun c hc => h1 c ((remove_first_commit_some _ _ _ hrf).1 c hc), ?_⟩
          have hsub := remove_first_commit_sublist _ _ _ hrf
          exact h2.sublist (hsub.map _)

/-- No operation ever decreases the id counter. -/
theorem apply_op_count_mono (st : MiniGitState) (op : MiniGitOp) :
    st.commit_count ≤ (apply_op st op).commit_count := by
  cases op with
  | stage fs f =>
      rw [apply_op, (add_file_commits fs f st).1]
  | commit fs m =>
      rw [apply_op]
      cases hs : st.staging with
      | nil => simp [commit_staged, hs]
      | cons f rest => simp [commit_staged, hs]
  | save dir m =>
      rw [apply_op]
      simp [save_commit]
  | delete cid =>
      rw [apply_op, delete_commit]
      cases hrf : remove_first_commit st.commits cid <;> simp

/-- Every reachable repository state satisfies the invariant. -/
theorem run_ops_inv (ops : List MiniGitOp) : RepoInv (run_ops ops) := by
  rw [run_ops]
  suffices h : ∀ st, RepoInv st → RepoInv (ops.foldl apply_op st) from h _ repo_inv_init
  induction ops with
  | nil => exact fun st h => h
  | cons op ops ih => exact fun st h => ih _ (repo_inv_apply st op h)

/- ================= Claim theorems ================================== -/

/-- C1: both commit-creation paths are claimed to cap snapshots at
`MAX_FILES_PER_COMMIT` and silently drop the excess, but neither loop
checks `file_count` against the cap: with 51 staged files (resp. 51
readable working-directory entries) the created commit records 51
snapshots, exceeding the declared bound of the `files[50]` array. -/
theorem per_commit_cap_violation :
    ((commit_staged no_fs "m" c1_staged_state).1.commits.head?.map
        (fun c => c.files.length)) = some 51 ∧
    ((save_commit c1_dir_listing "m" init_repository).commits.head?.map
        (fun c => c.files.length)) = some 51 ∧
    MAX_FILES_PER_COMMIT < 51 := by
  refine ⟨?_, ?_, by decide⟩
  · rfl
  · rfl

/-- C5: the catalog size never exceeds `MAX_DOCUMENTS` under any sequence
of document adds, and an add against a full catalog is a no-op that
leaves the whole engine state (hence every existing document) unchanged. -/
theorem catalog_capacity_bound (ops : List SearchAddOp) :
    (run_add_ops ops).documents.length ≤ MAX_DOCUMENTS ∧
    (∀ (st : SearchEngineState) (op : SearchAddOp),
      MAX_DOCUMENTS ≤ st.documents.length → apply_add_op st op = st) := by
  constructor
  · rw [run_add_ops]
    suffices h : ∀ st : SearchEngineState, st.documents.length ≤ MAX_DOCUMENTS →
        (ops.foldl apply_add_op st).documents.length ≤ MAX_DOCUMENTS from
      h init_search_engine (by simp [init_search_engine])
    induction ops with
    | nil => exact fun st h => h
    | cons op ops ih =>
        intro st h
        refine ih _ ?_
        cases op with
        | addDoc f c =>
            rw [apply_add_op, add_document_to_search_engine.eq_def]
            split
            · exact h
            · next hlt =>
                simp only [List.length_append, List.length_cons, List.length_nil]
                omega
        | addVirtual d =>
            rw [apply_add_op, add_document_to_search_engine_virtual]
            split
            · exact h
            · next hlt =>
                simp only [List.length_append, List.length_cons, List.length_nil]
                omega
  · intro st op hcap
    cases op with
    | addDoc f c =>
        rw [apply_add_op, add_document_to_search_engine.eq_def, if_pos hcap]
    | addVirtual d =>
        rw [apply_add_op, add_document_to_search_engine_virtual, if_pos hcap]

/-- C5 witness: the 101st add against a full catalog changes nothing. -/
theorem catalog_capacity_bound_witness :
    apply_add_op full_catalog (SearchAddOp.addVirtual demo_doc) = full_catalog :=
  (catalog_capacity_bound []).2 full_catalog (SearchAddOp.addVirtual demo_doc)
    (by simp [full_catalog])

/-- C6: along any operation sequence the commit list carries strictly
decreasing ids newest-first (so ids strictly increase in creation order),
every id is bounded by the counter, no operation decreases the counter,
`delete_commit` leaves the counter exactly unchanged, and both creation
paths assign the fresh id `commit_count + 1` — hence an id freed by a
deletion is never reassigned. -/
theorem commit_id_monotonicity (ops : List MiniGitOp) :
    ((run_ops ops).commits.map (fun c => c.commit_id)).Pairwise (fun a b => b < a) ∧
    (∀ c ∈ (run_ops ops).commits, c.commit_id ≤ (run_ops ops).commit_count) ∧
    (∀ op : MiniGitOp, (run_ops ops).commit_count ≤ (apply_op (run_ops ops) op).commit_count) ∧
    (∀ cid : ℕ, (delete_commit cid (run_ops ops)).1.commit_count
        = (run_ops ops).commit_count) ∧
    (∀ (fs : String → Option String) (msg : String), (run_ops ops).staging ≠ [] →
        (commit_staged fs msg (run_ops ops)).1.commits.map (fun c => c.commit_id)
          = ((run_ops ops).commit_count + 1)
              :: ((run_ops ops).commits.map (fun c => c.commit_id))) ∧
    (∀ (dir : List (String × Option String)) (msg : String),
        (save_commit dir msg (run_ops ops)).commits.map (fun c => c.commit_id)
          = ((run_ops ops).commit_count + 1)
              :: ((run_ops ops).commits.map (fun c => c.commit_id))) := by
  obtain ⟨hbound, hpair⟩ := run_ops_inv ops
  refine ⟨hpair, hbound, apply_op_count_mono _, ?_, ?_, ?_⟩
  · intro cid
    rw [delete_commit]
    cases hrf : remove_first_commit (run_ops ops).commits cid <;> rfl
  · intro fs msg hne
    cases hs : (run_ops ops).staging with
    | nil => exact absurd hs hne
    | cons f rest =>
        simp only [commit_staged, hs]
        rw [List.map_cons]
  · intro dir msg
    simp only [save_commit]
    rw [List.map_cons]

/-- C6 witness: after staging one file, committing assigns id 1 on top of
the empty log. -/
theorem commit_id_monotonicity_witness :
    (commit_staged no_fs "m"
        (run_ops [MiniGitOp.stage (fun _ => some "x") "a.txt"])).1.commits.map
          (fun c => c.commit_id)
      = ((run_ops [MiniGitOp.stage (fun _ => some "x") "a.txt"]).commit_count + 1)
          :: ((run_ops [MiniGitOp.stage (fun _ => some "x") "a.txt"]).commits.map
                (fun c => c.commit_id)) :=
  (commit_id_monotonicity [MiniGitOp.stage (fun _ => some "x") "a.txt"]).2.2.2.2.1
    no_fs "m" (by decide)

/-- C7: `commit_staged` fails (InvalidState, state unchanged) exactly when
the staging list is empty; with a non-empty staging list it succeeds,
creates exactly one commit, unconditionally clears the staging list, and
an immediately following `commit_staged` therefore fails. -/
theorem commit_staged_invalid_state (st : MiniGitState)
    (fs : String → Option String) (msg : String) :
    ((commit_staged fs msg st).2 = some MgError.invalidState ↔ st.staging = []) ∧
    (st.staging = [] → (commit_staged fs msg st).1 = st) ∧
    (st.staging ≠ [] →
      (commit_staged fs msg st).2 = none ∧
      (commit_staged fs msg st).1.commits.length = st.commits.length + 1 ∧
      (commit_staged fs msg st).1.staging = [] ∧
      (∀ (fs2 : String → Option String) (msg2 : String),
        (commit_staged fs2 msg2 (commit_staged fs msg st).1).2
          = some MgError.invalidState)) := by
  cases hs : st.staging with
  | nil =>
      refine ⟨?_, ?_, ?_⟩
      · simp [commit_staged, hs]
      · intro _
        simp [commit_staged, hs]
      · intro hne
        exact absurd rfl hne
  | cons f rest =>
      refine ⟨?_, ?_, fun _ => ⟨?_, ?_, ?_, ?_⟩⟩
      · simp [commit_staged, hs]
      · intro he
        exact absurd he (by simp)
      · simp [commit_staged, hs]
      · simp [commit_staged, hs]
      · simp [commit_staged, hs]
      · intro fs2 msg2
        simp [commit_staged, hs]

/-- C7 witness: with one staged file the commit succeeds, clears staging,
and a second commit fails; with nothing staged the call is rejected. -/
theorem commit_staged_invalid_state_witness :
    ((commit_staged no_fs "m" init_repository).1 = init_repository) ∧
    ((commit_staged no_fs "m" c7_state).2 = none) ∧
    ((commit_staged no_fs "m" c7_state).1.commits.length
        = c7_state.commits.length + 1) ∧
    ((commit_staged no_fs "m" c7_state).1.staging = []) ∧
    ((commit_staged no_fs "m" (commit_staged no_fs "m" c7_state).1).2
        = some MgError.invalidState) :=
  ⟨(commit_staged_invalid_state init_repository no_fs "m").2.1 rfl,
   ((commit_staged_invalid_state c7_state no_fs "m").2.2 (by decide)).1,
   ((commit_staged_invalid_state c7_state no_fs "m").2.2 (by decide)).2.1,
   ((commit_staged_invalid_state c7_state no_fs "m").2.2 (by decide)).2.2.1,
   ((commit_staged_invalid_state c7_state no_fs "m").2.2 (by decide)).2.2.2 no_fs "m"⟩

/-- C8: `delete_commit` only unlinks the commit with the given id: the
autocomplete trie, the search catalog and statistics, the id counter and
the staging list are untouched, the id disappears from the log and
`view_commit` reports it as not found, while every other commit survives
and nothing new appears. -/
theorem delete_commit_frame (st : MiniGitState) (cid : ℕ)
    (hnd : (st.commits.map (fun c => c.commit_id)).Nodup) :
    ((delete_commit cid st).1.ac = st.ac) ∧
    ((delete_commit cid st).1.engine = st.engine) ∧
    ((delete_commit cid st).1.commit_count = st.commit_count) ∧
    ((delete_commit cid st).1.staging = st.staging) ∧
    (view_commit cid (delete_commit cid st).1 = none) ∧
    (cid ∉ (delete_commit cid st).1.commits.map (fun c => c.commit_id)) ∧
    (∀ c ∈ st.commits, c.commit_id ≠ cid → c ∈ (delete_commit cid st).1.commits) ∧
    (∀ c ∈ (delete_commit cid st).1.commits, c ∈ st.commits) := by
  rw [delete_commit]
  cases hrf : remove_first_commit st.commits cid with
  | none =>
      have hno := remove_first_commit_none st.commits cid hrf
      refine ⟨rfl, rfl, rfl, rfl, ?_, ?_, fun c hc _ => hc, fun c hc => hc⟩
      · rw [view_commit]
        rw [List.find?_eq_none]
        intro c hc
        simpa using hno c hc
      · intro hmem
        obtain ⟨c, hc, hce⟩ := List.mem_map.mp hmem
        exact hno c hc hce
  | some l =>
      obtain ⟨hin, hkeep, hgone⟩ := remove_first_commit_some st.commits cid l hrf
      refine ⟨rfl, rfl, rfl, rfl, ?_, ?_, hkeep, hin⟩
      · rw [view_commit]
        rw [List.find?_eq_none]
        intro c hc
        simpa using hgone hnd c hc
      · intro hmem
        obtain ⟨c, hc, hce⟩ := List.mem_map.mp hmem
        exact hgone hnd c hc hce

/-- C8 witness: deleting commit 1 from a two-commit repository leaves the
indices, counter and commit 2 alone while commit 1 vanishes. -/
theorem delete_commit_frame_witness :
    ((delete_commit 1 c8_state).1.ac = c8_state.ac) ∧
    ((delete_commit 1 c8_state).1.commit_count = c8_state.commit_count) ∧
    (view_commit 1 (delete_commit 1 c8_state).1 = none) ∧
    ((⟨2, "second", []⟩ : Commit) ∈ (delete_commit 1 c8_state).1.commits) := by
  have h := delete_commit_frame c8_state 1 (by decide)
  exact ⟨h.1, h.2.2.1, h.2.2.2.2.1,
    h.2.2.2.2.2.2.1 ⟨2, "second", []⟩ (by decide) (by decide)⟩

/-- C9: the claim that every query on an initialized engine records one
statistics sample and one log entry fails for zero-result queries: a
query against an initialized engine with an empty catalog returns no
results and leaves the statistics and log untouched. -/
theorem search_query_stats_counterexample :
    (search_and_rank "hello" 10 init_search_engine).1 = init_search_engine ∧
    (search_and_rank "hello" 10 init_search_engine).2 = [] ∧
    (search_and_rank "hello" 10 init_search_engine).1.total_queries
        ≠ init_search_engine.total_queries + 1 ∧
    (search_and_rank "hello" 10 init_search_engine).1.log_entries
        ≠ init_search_engine.log_entries + 1 :=
  ⟨rfl, rfl, by decide, by decide⟩

/-- C9 (amended): a query with positive `max_results` against a non-empty
catalog records exactly one statistics sample (the query count rises by
one) and emits exactly one log entry, leaving the catalog unchanged;
empty-catalog (and `max_results = 0`) calls return early and record
nothing. -/
theorem search_query_stats (st : SearchEngineState) (q : String) (mr : ℕ)
    (hd : st.documents ≠ []) (hmr : mr ≠ 0) :
    (search_and_rank q mr st).1.total_queries = st.total_queries + 1 ∧
    (search_and_rank q mr st).1.log_entries = st.log_entries + 1 ∧
    (search_and_rank q mr st).1.documents = st.documents := by
  rw [search_and_rank, if_neg hmr,
    if_neg (fun h => hd (List.length_eq_zero.mp h))]
  exact ⟨rfl, rfl, rfl⟩

/-- C9 witness: a query against a one-document catalog records one sample
and one log entry. -/
theorem search_query_stats_witness :
    (search_and_rank "alpha" 10 one_doc_engine).1.total_queries
        = one_doc_engine.total_queries + 1 ∧
    (search_and_rank "alpha" 10 one_doc_engine).1.log_entries
        = one_doc_engine.log_entries + 1 ∧
    (search_and_rank "alpha" 10 one_doc_engine).1.documents
        = one_doc_engine.documents :=
  search_query_stats one_doc_engine "alpha" 10 (by decide) (by decide)

/-- C2: for a query with at least one token against a non-empty catalog,
every document is assigned a relevance; each relevance is the raw score —
the sum over tokens of `title_hits*3 + body_hits*1`, multiplied by
`1 + matched_token_count/token_count` exactly when more than one token
was supplied — divided by the epsilon-floored maximum raw score of the
query; and every relevance lies in `[0, 1]`. -/
theorem query_relevance_spec (docs : List SearchResultT) (query : String)
    (_hdocs : docs ≠ []) (_htok : query_tokens query ≠ []) :
    (relevance_list docs query).length = docs.length ∧
    relevance_list docs query
      = docs.map (fun d =>
          spec_raw_score (query_tokens query) (lower_string d.title).data
              (lower_string d.description).data
            / floored_max (raw_scores docs query)) ∧
    (∀ r ∈ relevance_list docs query, 0 ≤ r ∧ r ≤ 1) := by
  refine ⟨?_, relevance_list_formula docs query, relevance_list_bounds docs query⟩
  rw [relevance_list, List.length_map, raw_scores, List.length_map]

/-- C2 witness: the one-token query `alpha beta` over a one-document
catalog assigns exactly one relevance. -/
theorem query_relevance_spec_witness :
    (relevance_list [demo_doc] "alpha beta").length = [demo_doc].length :=
  (query_relevance_spec [demo_doc] "alpha beta" (by decide) (by decide)).1

/-- C3 counterexample: with `aa` stored at score 1 and `ab` at score 9,
the prefix `a` of the normalized form of `ab` has no competing match of
equal-or-higher score, yet `Suggest("a", 1)` omits `ab`: the collection
truncates at `max` in depth-first order before the sort by score runs. -/
theorem suggestion_prefix_containment_counterexample :
    norm_codes "ab" = ("a".data.map Char.toNat) ++ [98] ∧
    "a".data ≠ [] ∧
    ((entries_under c3_trie ("a".data.map Char.toNat)).filter
        (fun e => e.sugg ≠ "ab" ∧ 9 ≤ e.score)).length = 0 ∧
    ((entries_under c3_trie ("a".data.map Char.toNat)).filter
        (fun e => e.sugg ≠ "ab" ∧ 9 ≤ e.score)).length ≤ 1 ∧
    (∀ e ∈ get_autocomplete_suggestions c3_trie "a" 1, e.sugg ≠ "ab") := by
  exact ⟨by decide, by decide, by decide, by decide, by decide⟩

/-- C3 (amended): for a suggestion `s` just inserted, any non-empty
prefix `p1` of its normalized form, and any `maxS` at least the **total**
number of matches stored under that prefix (not merely those of
equal-or-higher score), `Suggest` returns `s`. -/
theorem suggestion_prefix_containment
    (t : Trie) (s : String) (sc : ℚ) (src : ACSource)
    (p1 : List Char) (rest : List ℕ) (maxS : ℕ)
    (hne : p1 ≠ [])
    (hpre : norm_codes s = p1.map Char.toNat ++ rest)
    (hmax : (entries_under (add_autocomplete_suggestion t s sc src)
        (p1.map Char.toNat)).length ≤ maxS) :
    s ∈ (get_autocomplete_suggestions (add_autocomplete_suggestion t s sc src)
        ⟨p1⟩ maxS).map ACEntry.sugg := by
  have hsne : s ≠ "" := by
    intro h
    subst h
    rw [norm_codes_empty] at hpre
    cases p1 with
    | nil => exact hne rfl
    | cons c cs => simp at hpre
  have ht'' : add_autocomplete_suggestion t s sc src
      = insert_path t (norm_codes s) s
          (if 0 < sc then sc else calculate_suggestion_score s src) := by
    rw [add_autocomplete_suggestion, if_neg hsne, insert_suggestion_into_trie]
  have hmem128 : ∀ k ∈ norm_codes s, k < 128 :=
    fun k hk => (mem_norm_codes s k hk).2.2
  obtain ⟨v, hv, hveow, hvsugg⟩ :=
    walk_insert_path (norm_codes s) t s
      (if 0 < sc then sc else calculate_suggestion_score s src) hmem128
  rw [← ht''] at hv
  rw [hpre, walk_query_append] at hv
  cases hu : walk_query (add_autocomplete_suggestion t s sc src)
      (p1.map Char.toNat) with
  | none => rw [hu] at hv; exact absurd hv (by simp)
  | some u =>
      rw [hu] at hv
      obtain ⟨e, he, hes⟩ :=
        sugg_mem_entries_of_walk rest u v s (by simpa using hv) hveow hvsugg
      have hentries : entries_under (add_autocomplete_suggestion t s sc src)
          (p1.map Char.toNat) = trie_entries u := by
        rw [entries_under, hu]
      rw [hentries] at hmax
      have hcodes : (String.mk p1).data.map (fun c => lower_code c.toNat)
          = p1.map Char.toNat := by
        show p1.map (fun c => lower_code c.toNat) = p1.map Char.toNat
        refine List.map_congr_left (fun c hc => ?_)
        have hkmem : c.toNat ∈ norm_codes s := by
          rw [hpre]
          exact List.mem_append_left _ (List.mem_map_of_mem _ hc)
        exact (mem_norm_codes s _ hkmem).2.1
      refine List.mem_map.mpr ⟨e, ?_, hes⟩
      rw [get_autocomplete_suggestions, hcodes, hu]
      show e ∈ List.insertionSort ac_score_ge (collect_suggestions_from_trie u [] maxS)
      rw [collect_all u maxS hmax]
      exact ((List.perm_insertionSort ac_score_ge (trie_entries u)).mem_iff).mpr he

/-- C3 witness: after inserting `ab`, the prefix `a` with room for both
potential matches returns `ab`. -/
theorem suggestion_prefix_containment_witness :
    "ab" ∈ (get_autocomplete_suggestions
        (add_autocomplete_suggestion empty_trie "ab" 9 ACSource.documentTitles)
        ⟨"a".data⟩ 2).map ACEntry.sugg :=
  suggestion_prefix_containment empty_trie "ab" 9 ACSource.documentTitles
    "a".data [98] 2 (by decide) (by decide) (by decide)

/-- C10: on the empty query the walk stays at the root, so `Suggest`
returns up to `max` end-of-word descendants of the whole tree — every
stored suggestion is reachable from the empty prefix, and all of them are
returned when `max` accommodates them. -/
theorem empty_prefix_matches_all (t : Trie) (maxS : ℕ) :
    get_autocomplete_suggestions t "" maxS
      = List.insertionSort ac_score_ge (collect_suggestions_from_trie t [] maxS) ∧
    (get_autocomplete_suggestions t "" maxS).length
      = min maxS (trie_entries t).length ∧
    ((trie_entries t).length ≤ maxS →
      ∀ e ∈ trie_entries t, e ∈ get_autocomplete_suggestions t "" maxS) := by
  have h0 : get_autocomplete_suggestions t "" maxS
      = List.insertionSort ac_score_ge (collect_suggestions_from_trie t [] maxS) := rfl
  refine ⟨h0, ?_, ?_⟩
  · rw [h0, (List.perm_insertionSort ac_score_ge _).length_eq, collect_eq_take]
    simp [List.length_take]
  · intro hle e he
    rw [h0, collect_all t maxS hle]
    exact ((List.perm_insertionSort ac_score_ge (trie_entries t)).mem_iff).mpr he

/-- C10 witness: the empty query returns the one stored suggestion. -/
theorem empty_prefix_matches_all_witness :
    (⟨"hi", 2, 1⟩ : ACEntry) ∈ get_autocomplete_suggestions c10_trie "" 3 :=
  (empty_prefix_matches_all c10_trie 3).2.2 (by decide) ⟨"hi", 2, 1⟩ (by decide)
